import Mathlib

/-!
Shallow embedding of the plain-text-editor buffer of this repository
(src/editor.rs, src/shape.rs).  Rust `String`s are modelled as `List Nat`
(their UTF-8 bytes); `skia::Rect` is modelled as a record of four integers
(pixel geometry; the concrete float values never matter for the
properties below, only structure and lengths).  Fallible operations
(Rust panics: slice-index and char-boundary violations, `assert!`,
`todo!`) return `Option`, with `none` for the panic.
-/

namespace PlainTextEditor

/-- Rust `u8` continuation-byte test used by `str::is_char_boundary`:
a byte `b` is a UTF-8 continuation byte iff `0x80 ≤ b < 0xC0`. -/
def isCont (b : Nat) : Bool := decide (128 ≤ b) && decide (b < 192)

/-- `str::is_char_boundary(i)`: true at 0 and at the length; false past the
end; inside the string, true iff the byte at `i` is not a continuation
byte. -/
def isCharBoundary (s : List Nat) (i : Nat) : Bool :=
  if i = 0 then true
  else if i < s.length then !(isCont (s.getD i 0))
  else decide (i = s.length)

/-- `(0..=i).rev().find(|&j| text.is_char_boundary(j))` of
src/editor.rs line 101: the greatest char boundary `≤ i` (0 always
qualifies). -/
def findBoundaryDown (s : List Nat) : Nat → Nat
  | 0 => 0
  | i + 1 => if isCharBoundary s (i + 1) then i + 1 else findBoundaryDown s i

/-- `(1..=4).map(|i| b + i).find(|&i| text.is_char_boundary(i))` of
src/editor.rs lines 135-138: the least char boundary in `[b+1, b+4]`,
if any. -/
def findBoundaryUp4 (s : List Nat) (b : Nat) : Option Nat :=
  if isCharBoundary s (b + 1) then some (b + 1)
  else if isCharBoundary s (b + 2) then some (b + 2)
  else if isCharBoundary s (b + 3) then some (b + 3)
  else if isCharBoundary s (b + 4) then some (b + 4)
  else none

/-- `TextPosition` of src/editor.rs (paragraph field first, as in the
source, so that lexicographic derive order matches). -/
structure TextPosition where
  paragraph_index : Nat
  text_byte_index : Nat
deriving DecidableEq, Repr

/-- `Movement` of src/editor.rs. -/
inductive Movement where
  | nowhere
  | left
  | up
  | right
  | down
  | home
  | lineEnd
  | wordLeft
  | wordRight
deriving DecidableEq, Repr

/-- `skia::Rect`, four sides; integer-valued model of the pixel
geometry. -/
structure Rect where
  left : Int
  top : Int
  right : Int
  bottom : Int
deriving DecidableEq, Repr

/-- `UNSET_RECT` of src/main.rs (all four sides `f32::MIN`; any fixed
sentinel works for the properties proved here). -/
def UNSET_RECT : Rect := ⟨-2147483648, -2147483648, -2147483648, -2147483648⟩

/-- `TextLine` of src/editor.rs.  `blob` keeps only presence (the glyph
blob itself is opaque); `origin` is the `IPoint` as an integer pair. -/
structure TextLine where
  text : List Nat
  blob : Option Unit
  cursor_pos : List Rect
  line_end_offsets : List Nat
  word_boundaries : List Bool
  origin : Int × Int
  height : Int
  shaped : Bool
deriving DecidableEq, Repr

/-- `TextLine::new` of src/editor.rs lines 454-465: all cache fields at
their defaults. -/
def TextLine.new (text : List Nat) : TextLine :=
  { text := text
    blob := none
    cursor_pos := []
    line_end_offsets := []
    word_boundaries := []
    origin := (0, 0)
    height := 0
    shaped := false }

instance : Inhabited TextLine := ⟨TextLine.new []⟩

/-- The `Editor` state of src/editor.rs lines 14-22 (font, font manager
and locale are external handles that no modelled operation inspects, so
they are not carried). -/
structure Editor where
  lines : List TextLine
  width : Int
  height : Int
  needs_reshape : Bool
deriving DecidableEq, Repr

/-- `Editor::new` of src/editor.rs lines 25-46. -/
def Editor.new : Editor :=
  { lines := [], width := 0, height := 0, needs_reshape := false }

/-- `Editor::mark_dirty` of src/editor.rs lines 331-335. -/
def markDirty (l : TextLine) : TextLine :=
  { l with blob := none, shaped := false, word_boundaries := [] }

/-- The normalization prefix of `Editor::mov` (src/editor.rs lines
93-105), also what `mov(Movement::Nowhere, pos)` returns: empty document
maps everything to the sentinel `(0,0)`; an out-of-range paragraph is
clamped to the last line with the byte index at that line's length;
otherwise the byte index is snapped down to the nearest char
boundary. -/
def Editor.movNowhere (e : Editor) (p : TextPosition) : TextPosition :=
  if e.lines.length = 0 then ⟨0, 0⟩
  else if p.paragraph_index < e.lines.length then
    let text := (e.lines.getD p.paragraph_index default).text
    ⟨p.paragraph_index, findBoundaryDown text p.text_byte_index⟩
  else
    ⟨e.lines.length - 1, (e.lines.getD (e.lines.length - 1) default).text.length⟩

/-- `Movement::Left` body of src/editor.rs lines 118-131, applied to an
already-normalized position. -/
def Editor.movLeftFrom (e : Editor) (pos : TextPosition) : TextPosition :=
  if pos.text_byte_index = 0 then
    if 0 < pos.paragraph_index then
      ⟨pos.paragraph_index - 1,
        (e.lines.getD (pos.paragraph_index - 1) default).text.length⟩
    else pos
  else
    let text := (e.lines.getD pos.paragraph_index default).text
    ⟨pos.paragraph_index, findBoundaryDown text (pos.text_byte_index - 1)⟩

/-- `Movement::Right` body of src/editor.rs lines 133-144, applied to an
already-normalized position. -/
def Editor.movRightFrom (e : Editor) (pos : TextPosition) : TextPosition :=
  let text := (e.lines.getD pos.paragraph_index default).text
  match findBoundaryUp4 text pos.text_byte_index with
  | some i => ⟨pos.paragraph_index, i⟩
  | none =>
      if pos.paragraph_index + 1 < e.lines.length then
        ⟨pos.paragraph_index + 1, 0⟩
      else pos

/-- `Editor::mov` of src/editor.rs lines 92-152.  The unimplemented
movement kinds (`Up`, `Down`, `Home`, `End`, `WordLeft`, `WordRight`)
are `todo!()` panics in the source, modelled as `none`; note the
empty-document early return precedes the movement dispatch, so every
movement on an empty document yields `some (0,0)`. -/
def Editor.mov (e : Editor) (m : Movement) (p : TextPosition) : Option TextPosition :=
  if e.lines.length = 0 then some ⟨0, 0⟩
  else
    let pos := e.movNowhere p
    match m with
    | .nowhere => some pos
    | .left => some (e.movLeftFrom pos)
    | .right => some (e.movRightFrom pos)
    | _ => none

/-- `str::split('\n')` of src/editor.rs line 220 on the UTF-8 bytes:
splits at every byte 10, always yielding at least one (possibly empty)
part. -/
def splitNl : List Nat → List (List Nat)
  | [] => [[]]
  | b :: rest =>
      match splitNl rest with
      | [] => [[]]
      | p :: ps => if b = 10 then [] :: p :: ps else (b :: p) :: ps

/-- `Editor::insert` of src/editor.rs lines 208-255.  Returns `none` for
the `assert_eq!` failures of the append-at-end branch (lines 222-223);
every other path is total.  In the newline branch the returned byte
index is the length of the last split part, captured *before* the
original tail of the split line is appended to the new foot
paragraph (line 243 precedes line 244 in the source). -/
def Editor.insert (e : Editor) (p : TextPosition) (text : List Nat) :
    Option (Editor × TextPosition) :=
  if text = [] then some (e, p)
  else
    let e1 : Editor := { e with needs_reshape := true }
    let pos := e1.movNowhere p
    let parts := splitNl text
    if e1.lines.length ≤ pos.paragraph_index then
      if pos.paragraph_index = e1.lines.length ∧ pos.text_byte_index = 0 then
        let lines2 := e1.lines ++ parts.map TextLine.new
        some ({ e1 with lines := lines2 },
          ⟨lines2.length, (lines2.getLastD default).text.length⟩)
      else none
    else
      let origLine := e1.lines.getD pos.paragraph_index default
      let dirty := markDirty origLine
      match parts with
      | [] => none
      | first :: rest =>
        match rest with
        | [] =>
          let newLine : TextLine :=
            { dirty with
              text := origLine.text.take pos.text_byte_index ++ first ++
                origLine.text.drop pos.text_byte_index }
          some ({ e1 with lines := e1.lines.set pos.paragraph_index newLine },
            ⟨pos.paragraph_index, pos.text_byte_index + first.length⟩)
        | next :: more =>
          let inter := (next :: more).dropLast
          let lastPart := (next :: more).getLastD []
          let headLine : TextLine :=
            { dirty with text := origLine.text.take pos.text_byte_index ++ first }
          let footLine : TextLine :=
            TextLine.new (lastPart ++ origLine.text.drop pos.text_byte_index)
          some ({ e1 with
              lines := e1.lines.take pos.paragraph_index ++ [headLine] ++
                inter.map TextLine.new ++ [footLine] ++
                e1.lines.drop (pos.paragraph_index + 1) },
            ⟨pos.paragraph_index + rest.length, lastPart.length⟩)

/-- `Editor::remove` of src/editor.rs lines 257-278.  `none` models the
panics: the slice `&mut self.lines[start..=end]` requires
`start.paragraph_index ≤ end.paragraph_index + 1 ≤ line count`; the
end-inclusive string slice `&foot.text[..=end.text_byte_index]` requires
a char boundary at `end.text_byte_index + 1` (so in particular
`end.text_byte_index < foot.text.len()`); `replace_range` requires char
boundaries at its endpoints and an ordered byte range. -/
def Editor.remove (e : Editor) (s t : TextPosition) :
    Option (Editor × TextPosition) :=
  if s = t ∨ e.lines.length ≤ s.paragraph_index then some (e, s)
  else
    let e1 : Editor := { e with needs_reshape := true }
    let a := s.paragraph_index
    let b := t.paragraph_index
    if b + 1 ≤ e1.lines.length ∧ a ≤ b + 1 then
      if a < b then
        let head := e1.lines.getD a default
        let foot := e1.lines.getD b default
        if isCharBoundary head.text s.text_byte_index = true ∧
            isCharBoundary foot.text (t.text_byte_index + 1) = true then
          let head2 : TextLine :=
            { markDirty head with
              text := head.text.take s.text_byte_index ++
                foot.text.take (t.text_byte_index + 1) }
          some ({ e1 with lines := e1.lines.take a ++ [head2] ++ e1.lines.drop b }, s)
        else none
      else
        let line := e1.lines.getD a default
        if s.text_byte_index ≤ t.text_byte_index ∧
            isCharBoundary line.text s.text_byte_index = true ∧
            isCharBoundary line.text t.text_byte_index = true then
          let line2 : TextLine :=
            { markDirty line with
              text := line.text.take s.text_byte_index ++
                line.text.drop t.text_byte_index }
          some ({ e1 with lines := e1.lines.set a line2 }, s)
        else none
    else none

/-- `Editor::load` of src/editor.rs lines 373-377: replace every line
and schedule a reshape.  The line source is modelled as its list of
decoded lines. -/
def Editor.load (e : Editor) (ls : List (List Nat)) : Editor :=
  { e with lines := ls.map TextLine.new, needs_reshape := true }

/-- The per-line output of `shape::shape` that the editor stores
(src/shape.rs `ShapeResult`). -/
structure ShapeResult where
  blob : Option Unit
  line_break_offsets : List Nat
  glyph_bounds : List Rect
  word_breaks : List Bool
  vertical_advance : Int
deriving Repr

/-- The data the external shaper (skia `Shaper::shape` driving the
`RunHandler` of src/shape.rs) feeds into one `shape` call: the cursor
cell writes performed by `set_character_bounds` across all runs (index,
rectangle), the synthesized trailing caret rectangle, the blob, the raw
monotonic `line_end_offsets`, and the line's vertical advance.  All of
it is environment input; `shape` itself only arranges it. -/
structure ShapeOracle where
  writes : List (Nat × Rect)
  finalRect : Rect
  blob : Option Unit
  lineEndOffsets : List Nat
  verticalAdvance : Int

/-- `shape::shape` of src/shape.rs lines 312-369, parameterized by the
external shaper's output: `glyph_bounds` starts as `text.len()` copies
of `UNSET_RECT` (line 317), `set_character_bounds` overwrites cells in
place (modelled by `List.set`, which is length-preserving exactly like
the source's slice writes), and the final caret rectangle is pushed at
the end (line 360).  `line_break_offsets` drops the last line-end offset
when there is more than one (lines 355-359); `word_breaks` is the
char-boundary bitmap (line 361). -/
def shape (text : List Nat) (o : ShapeOracle) : ShapeResult :=
  { blob := o.blob
    line_break_offsets :=
      if 1 < o.lineEndOffsets.length then o.lineEndOffsets.dropLast else []
    glyph_bounds :=
      (o.writes.foldl (fun acc w => acc.set w.1 w.2)
        (List.replicate text.length UNSET_RECT)) ++ [o.finalRect]
    word_breaks := (List.range text.length).map (fun i => isCharBoundary text i)
    vertical_advance := o.verticalAdvance }

/-- One iteration of the reshape loop of src/editor.rs lines 345-365:
an already-shaped line is skipped, a dirty line receives the fresh
`ShapeResult` and is marked shaped. -/
def reshapeLine (o : List Nat → ShapeOracle) (l : TextLine) : TextLine :=
  if l.shaped then l
  else
    let r := shape l.text (o l.text)
    { l with
      blob := r.blob
      cursor_pos := r.glyph_bounds
      line_end_offsets := r.line_break_offsets
      word_boundaries := r.word_breaks
      height := r.vertical_advance
      shaped := true }

/-- The origin-stacking fold of src/editor.rs lines 366-369: assigns
each line `origin = (0, y)` for the running height `y` and returns the
total. -/
def stackOrigins : List TextLine → Int → Int × List TextLine
  | [], y => (y, [])
  | l :: ls, y =>
      let l2 : TextLine := { l with origin := (0, y) }
      let r := stackOrigins ls (y + l2.height)
      (r.1, l2 :: r.2)

/-- `Editor::reshape_all` of src/editor.rs lines 337-371, parameterized
by the external shaper (`o`, keyed by line text).  Note the guard: when
`needs_reshape` is false the function returns immediately, in particular
*without* inserting the empty line into an empty document. -/
def Editor.reshape_all (e : Editor) (o : List Nat → ShapeOracle) : Editor :=
  if !e.needs_reshape then e
  else
    let lines0 := if e.lines.isEmpty then [TextLine.new []] else e.lines
    let lines1 := lines0.map (reshapeLine o)
    let r := stackOrigins lines1 0
    { e with lines := r.2, height := r.1, needs_reshape := false }

/-- Offset a rectangle by a point (`Rect::with_offset`). -/
def rectOffset (r : Rect) (p : Int × Int) : Rect :=
  ⟨r.left + p.1, r.top + p.2, r.right + p.1, r.bottom + p.2⟩

/-- `Editor::get_location` of src/editor.rs lines 192-206: reshape,
normalize the cursor, look the byte index up in the line's `cursor_pos`
cache (absent entry gives `None`), and narrow the rectangle into a
2-pixel caret offset by the line origin. -/
def Editor.get_location (e : Editor) (o : List Nat → ShapeOracle)
    (cursor : TextPosition) : Editor × Option Rect :=
  let e2 := e.reshape_all o
  if e2.lines.length = 0 then (e2, none)
  else
    let c := e2.movNowhere cursor
    let line := e2.lines.getD c.paragraph_index default
    match line.cursor_pos.get? c.text_byte_index with
    | none => (e2, none)
    | some r =>
        let r2 : Rect := { r with right := r.left + 1, left := r.left - 1 }
        (e2, some (rectOffset r2 line.origin))

/-- Structural well-formedness of a UTF-8 byte string, as far as
`is_char_boundary` can observe it: no leading continuation byte, and
every maximal run of continuation bytes has length at most 3 and follows
a non-continuation byte.  `k` is the number of continuation bytes still
permitted at the current point.  Every Rust `String` satisfies
`chunksOk s 0` (full UTF-8 validity is strictly stronger). -/
def chunksOk : List Nat → Nat → Bool
  | [], _ => true
  | b :: rest, k =>
      if isCont b then
        match k with
        | 0 => false
        | k' + 1 => chunksOk rest k'
      else chunksOk rest 3

/-- The boundary structure of a valid UTF-8 string (see `chunksOk`). -/
def validUtf8 (s : List Nat) : Bool := chunksOk s 0

/-- A degenerate external-shaper behaviour: no cursor cell writes, the
sentinel final rectangle, no blob, no line ends, zero advance.  Used to
instantiate theorems at concrete inputs. -/
def trivialOracle : List Nat → ShapeOracle :=
  fun _ => ⟨[], UNSET_RECT, none, [], 0⟩

/-- The document-end caret position of a non-empty document: the byte
length of the last paragraph's text, in the last paragraph. -/
def Editor.docEnd (e : Editor) : TextPosition :=
  ⟨e.lines.length - 1, (e.lines.getD (e.lines.length - 1) default).text.length⟩

/-! ## Basic lemmas about char boundaries and their search functions -/

lemma boundary_zero (s : List Nat) : isCharBoundary s 0 = true := rfl

lemma boundary_length (s : List Nat) : isCharBoundary s s.length = true := by
  unfold isCharBoundary
  rcases s with _ | ⟨x, r⟩ <;> simp

lemma boundary_le_length {s : List Nat} {i : Nat}
    (h : isCharBoundary s i = true) : i ≤ s.length := by
  unfold isCharBoundary at h
  split_ifs at h with h0 h1
  · omega
  · omega
  · simp only [decide_eq_true_eq] at h
    omega

lemma boundary_of_gt_length {s : List Nat} {i : Nat} (h : s.length < i) :
    isCharBoundary s i = false := by
  unfold isCharBoundary
  rw [if_neg (by omega), if_neg (by omega)]
  simp only [decide_eq_false_iff_not]
  omega

lemma findBoundaryDown_le (s : List Nat) (i : Nat) : findBoundaryDown s i ≤ i := by
  induction i with
  | zero => simp [findBoundaryDown]
  | succ n ih =>
      unfold findBoundaryDown
      split
      · omega
      · omega

lemma findBoundaryDown_boundary (s : List Nat) (i : Nat) :
    isCharBoundary s (findBoundaryDown s i) = true := by
  induction i with
  | zero => exact boundary_zero s
  | succ n ih =>
      unfold findBoundaryDown
      split
      · assumption
      · exact ih

lemma findBoundaryDown_fix {s : List Nat} {i : Nat}
    (h : isCharBoundary s i = true) : findBoundaryDown s i = i := by
  cases i with
  | zero => rfl
  | succ n => unfold findBoundaryDown; rw [if_pos h]

lemma findBoundaryDown_max {s : List Nat} {b m : Nat}
    (hb : isCharBoundary s b = true) (hbm : b ≤ m)
    (hno : ∀ j, b < j → j ≤ m → isCharBoundary s j = false) :
    findBoundaryDown s m = b := by
  induction m with
  | zero =>
      have : b = 0 := by omega
      subst this; rfl
  | succ n ih =>
      unfold findBoundaryDown
      by_cases hB : isCharBoundary s (n + 1) = true
      · rw [if_pos hB]
        by_contra hne
        have hlt : b < n + 1 := by omega
        have := hno (n + 1) (by omega) (by omega)
        rw [this] at hB
        exact absurd hB (by simp)
      · rw [if_neg hB]
        have hbn : b ≤ n := by
          rcases Nat.lt_or_ge b (n + 1) with h | h
          · omega
          · have : b = n + 1 := by omega
            subst this
            exact absurd hb hB
        exact ih hbn (fun j h1 h2 => hno j h1 (by omega))

lemma findBoundaryUp4_spec {s : List Nat} {b i : Nat}
    (h : findBoundaryUp4 s b = some i) :
    b < i ∧ i ≤ b + 4 ∧ isCharBoundary s i = true ∧
      ∀ k, b < k → k < i → isCharBoundary s k = false := by
  unfold findBoundaryUp4 at h
  have bfalse : ∀ (c : Bool), ¬(c = true) → c = false := by
    intro c hc; cases c <;> simp_all
  split_ifs at h with h1 h2 h3 h4 <;> injection h with h <;> subst h
  · exact ⟨by omega, by omega, h1, fun k hk1 hk2 => absurd hk2 (by omega)⟩
  · refine ⟨by omega, by omega, h2, fun k hk1 hk2 => ?_⟩
    have : k = b + 1 := by omega
    subst this; exact bfalse _ h1
  · refine ⟨by omega, by omega, h3, fun k hk1 hk2 => ?_⟩
    rcases (by omega : k = b + 1 ∨ k = b + 2) with h | h <;> subst h
    · exact bfalse _ h1
    · exact bfalse _ h2
  · refine ⟨by omega, by omega, h4, fun k hk1 hk2 => ?_⟩
    rcases (by omega : k = b + 1 ∨ k = b + 2 ∨ k = b + 3) with h | h | h <;> subst h
    · exact bfalse _ h1
    · exact bfalse _ h2
    · exact bfalse _ h3

lemma findBoundaryUp4_isSome {s : List Nat} {b j : Nat}
    (hj1 : 1 ≤ j) (hj4 : j ≤ 4) (hb : isCharBoundary s (b + j) = true) :
    ∃ i, findBoundaryUp4 s b = some i := by
  unfold findBoundaryUp4
  split_ifs with h1 h2 h3 h4
  · exact ⟨b + 1, rfl⟩
  · exact ⟨b + 2, rfl⟩
  · exact ⟨b + 3, rfl⟩
  · exact ⟨b + 4, rfl⟩
  · exfalso
    rcases (by omega : j = 1 ∨ j = 2 ∨ j = 3 ∨ j = 4) with h | h | h | h <;>
      subst h
    · exact h1 hb
    · exact h2 hb
    · exact h3 hb
    · exact h4 hb

lemma findBoundaryUp4_none {s : List Nat} {b : Nat} (h : s.length ≤ b) :
    findBoundaryUp4 s b = none := by
  unfold findBoundaryUp4
  rw [boundary_of_gt_length (by omega), boundary_of_gt_length (by omega),
    boundary_of_gt_length (by omega), boundary_of_gt_length (by omega)]
  rfl

/-! ## Normalization (`mov (Movement::Nowhere)`) -/

lemma mov_nowhere_eq (e : Editor) (p : TextPosition) :
    e.mov .nowhere p = some (e.movNowhere p) := by
  unfold Editor.mov Editor.movNowhere
  split_ifs <;> rfl

lemma movNowhere_para_lt {e : Editor} (h : e.lines ≠ []) (p : TextPosition) :
    (e.movNowhere p).paragraph_index < e.lines.length := by
  unfold Editor.movNowhere
  have hlen : e.lines.length ≠ 0 := by
    simpa [List.length_eq_zero] using h
  rw [if_neg hlen]
  split_ifs with hp
  · exact hp
  · simp only
    omega

lemma movNowhere_boundary {e : Editor} (h : e.lines ≠ []) (p : TextPosition) :
    isCharBoundary
      ((e.lines.getD (e.movNowhere p).paragraph_index default).text)
      (e.movNowhere p).text_byte_index = true := by
  unfold Editor.movNowhere
  have hlen : e.lines.length ≠ 0 := by
    simpa [List.length_eq_zero] using h
  rw [if_neg hlen]
  split_ifs with hp
  · exact findBoundaryDown_boundary _ _
  · exact boundary_length _

lemma movNowhere_fix {e : Editor} {p : TextPosition}
    (hp : p.paragraph_index < e.lines.length)
    (hb : isCharBoundary (e.lines.getD p.paragraph_index default).text
      p.text_byte_index = true) :
    e.movNowhere p = p := by
  unfold Editor.movNowhere
  rw [if_neg (by omega), if_pos hp]
  simp only [findBoundaryDown_fix hb]

lemma movNowhere_idem (e : Editor) (p : TextPosition) :
    e.movNowhere (e.movNowhere p) = e.movNowhere p := by
  rcases List.eq_nil_or_concat e.lines with h | ⟨_, _, h⟩
  · unfold Editor.movNowhere
    rw [if_pos (by simp [h]), if_pos (by simp [h])]
  · have hne : e.lines ≠ [] := by simp [h]
    exact movNowhere_fix (movNowhere_para_lt hne p) (movNowhere_boundary hne p)

/-- **C5.** `mov(Movement::Nowhere, p)` returns the sentinel `(0,0)` on
an empty document; on a non-empty document it returns a position whose
paragraph index is in range and whose byte index is the paragraph's
length or a char boundary strictly inside it, and it is idempotent. -/
theorem C5_mov_nowhere_normalizes (e : Editor) (p : TextPosition) :
    (e.lines = [] → e.mov .nowhere p = some ⟨0, 0⟩) ∧
    (e.lines ≠ [] → ∃ q, e.mov .nowhere p = some q ∧
      q.paragraph_index < e.lines.length ∧
      (q.text_byte_index =
          (e.lines.getD q.paragraph_index default).text.length ∨
        (q.text_byte_index <
            (e.lines.getD q.paragraph_index default).text.length ∧
          isCharBoundary (e.lines.getD q.paragraph_index default).text
            q.text_byte_index = true)) ∧
      e.mov .nowhere q = some q) := by
  constructor
  · intro h
    unfold Editor.mov
    rw [if_pos (by simp [h])]
  · intro h
    refine ⟨e.movNowhere p, mov_nowhere_eq e p, movNowhere_para_lt h p, ?_, ?_⟩
    · have hb := movNowhere_boundary h p
      have hle := boundary_le_length hb
      rcases Nat.lt_or_ge (e.movNowhere p).text_byte_index
          (e.lines.getD (e.movNowhere p).paragraph_index default).text.length
          with hlt | hge
      · exact Or.inr ⟨hlt, hb⟩
      · exact Or.inl (by omega)
    · rw [mov_nowhere_eq, movNowhere_idem]

/-- **C5 witness.** The non-empty conjunct applied to a one-line
document `["hi"]` at the wild position `(paragraph 7, byte 9)`, and the
empty conjunct applied to a fresh editor. -/
theorem C5_mov_nowhere_normalizes_witness :
    (Editor.new.mov .nowhere ⟨7, 9⟩ = some ⟨0, 0⟩) ∧
    (∃ q, (Editor.new.load [[104, 105]]).mov .nowhere ⟨7, 9⟩ = some q ∧
      q.paragraph_index < (Editor.new.load [[104, 105]]).lines.length ∧
      (q.text_byte_index =
          ((Editor.new.load [[104, 105]]).lines.getD q.paragraph_index
            default).text.length ∨
        (q.text_byte_index <
            ((Editor.new.load [[104, 105]]).lines.getD q.paragraph_index
              default).text.length ∧
          isCharBoundary
            ((Editor.new.load [[104, 105]]).lines.getD q.paragraph_index
              default).text q.text_byte_index = true)) ∧
      (Editor.new.load [[104, 105]]).mov .nowhere q = some q) :=
  ⟨(C5_mov_nowhere_normalizes Editor.new ⟨7, 9⟩).1 rfl,
    (C5_mov_nowhere_normalizes (Editor.new.load [[104, 105]]) ⟨7, 9⟩).2
      (by decide)⟩

/-! ## No-op guards (C8) -/

/-- **C8.** `insert` with empty text returns the position and leaves the
whole editor state (lines, flags, `needs_reshape`) unchanged, and
`remove` with `start == end` or with `start.paragraph_index` out of
range returns `start` with the whole state unchanged. -/
theorem C8_noop_guards (e : Editor) (p s t : TextPosition)
    (h : s = t ∨ e.lines.length ≤ s.paragraph_index) :
    e.insert p [] = some (e, p) ∧ e.remove s t = some (e, s) := by
  constructor
  · unfold Editor.insert
    rw [if_pos rfl]
  · unfold Editor.remove
    rw [if_pos h]

/-- **C8 witness.** Both no-op guards at concrete inputs: empty insert
into `["ab"]`, and removal of the degenerate range `(0,1)..(0,1)`. -/
theorem C8_noop_guards_witness :
    (Editor.new.load [[97, 98]]).insert ⟨0, 1⟩ [] =
      some (Editor.new.load [[97, 98]], ⟨0, 1⟩) ∧
    (Editor.new.load [[97, 98]]).remove ⟨0, 1⟩ ⟨0, 1⟩ =
      some (Editor.new.load [[97, 98]], ⟨0, 1⟩) :=
  C8_noop_guards (Editor.new.load [[97, 98]]) ⟨0, 1⟩ ⟨0, 1⟩ ⟨0, 1⟩ (Or.inl rfl)

/-! ## The reachable panic of `remove` (C9) -/

/-- **C9.** A multi-paragraph `remove` whose `end` is the legal
end-of-line caret of the tail paragraph (byte index = text length, a
valid char boundary) hits the out-of-bounds end-inclusive slice
`&foot.text[..=end.text_byte_index]` and panics instead of completing:
on `["ab", "cd"]`, removing `(paragraph 0, byte 0) .. (paragraph 1,
byte 2)` faults (`none` in the model). -/
theorem C9_end_inclusive_slice_panics :
    (2 = ([99, 100] : List Nat).length ∧
      isCharBoundary [99, 100] 2 = true ∧
      (Editor.new.load [[97, 98], [99, 100]]).lines.length = 2) ∧
    (Editor.new.load [[97, 98], [99, 100]]).remove ⟨0, 0⟩ ⟨1, 2⟩ = none := by
  decide

/-! ## Insert into an empty document (C10) -/

lemma splitNl_ne_nil (l : List Nat) : splitNl l ≠ [] := by
  cases l with
  | nil => simp [splitNl]
  | cons b rest =>
      unfold splitNl
      cases splitNl rest with
      | nil => simp
      | cons p ps => split_ifs <;> simp

lemma insert_empty_doc {e : Editor} (he : e.lines = []) {text : List Nat}
    (ht : text ≠ []) (p : TextPosition) :
    e.insert p text =
      some ({ e with
          needs_reshape := true
          lines := (splitNl text).map TextLine.new },
        ⟨((splitNl text).map TextLine.new).length,
          (((splitNl text).map TextLine.new).getLastD default).text.length⟩) := by
  unfold Editor.insert Editor.movNowhere
  rw [if_neg ht]
  simp [he]

/-- **C10.** Inserting non-empty text into a document with zero lines
takes the append-at-end branch (normalization yields the sentinel
`(0,0)`), and the returned position's `paragraph_index` equals the
resulting line count — one past the last valid index — so the returned
position violates the invariant `paragraph_index < line_count`. -/
theorem C10_insert_into_empty_breaks_invariant (e : Editor)
    (p : TextPosition) (text : List Nat) (he : e.lines = [])
    (ht : text ≠ []) :
    ∃ e2 q, e.insert p text = some (e2, q) ∧
      q.paragraph_index = e2.lines.length ∧
      0 < e2.lines.length ∧
      ¬(q.paragraph_index < e2.lines.length) := by
  refine ⟨_, _, insert_empty_doc he ht p, rfl, ?_, ?_⟩
  · simp only [List.length_map]
    exact List.length_pos.mpr (splitNl_ne_nil text)
  · simp

/-- **C10 witness.** Inserting `"hi"` into a fresh (zero-line) editor:
the returned paragraph index equals the new line count 1. -/
theorem C10_insert_into_empty_breaks_invariant_witness :
    ∃ e2 q, Editor.new.insert ⟨0, 0⟩ [104, 105] = some (e2, q) ∧
      q.paragraph_index = e2.lines.length ∧
      0 < e2.lines.length ∧
      ¬(q.paragraph_index < e2.lines.length) :=
  C10_insert_into_empty_breaks_invariant Editor.new ⟨0, 0⟩ [104, 105] rfl
    (by decide)

/-! ## The at-least-one-line guarantee of `reshape_all` (C3) -/

lemma stackOrigins_length (ls : List TextLine) (y : Int) :
    (stackOrigins ls y).2.length = ls.length := by
  induction ls generalizing y with
  | nil => rfl
  | cons l ls ih => simp [stackOrigins, ih]

/-- **C3 (amended).** Whenever `reshape_all` runs with `needs_reshape`
set, the document afterwards has at least one line (an empty document
gets the single empty line inserted). -/
theorem C3_reshape_all_nonempty (e : Editor) (o : List Nat → ShapeOracle)
    (h : e.needs_reshape = true) :
    0 < (e.reshape_all o).lines.length := by
  unfold Editor.reshape_all
  rw [h]
  simp only [Bool.not_true, Bool.false_eq_true, if_false]
  by_cases hE : e.lines.isEmpty
  · simp [hE, stackOrigins_length]
  · simp only [hE, Bool.false_eq_true, if_false, stackOrigins_length,
      List.length_map]
    refine List.length_pos.mpr ?_
    intro h0
    rw [h0] at hE
    simp at hE

/-- **C3 counterexample.** A freshly created editor has
`needs_reshape = false` and zero lines, so `reshape_all` returns
immediately and the document stays truly empty — the claim's "in
particular" case (a fresh editor before any edit) fails. -/
theorem C3_counterexample_fresh_editor :
    Editor.new.needs_reshape = false ∧
    (Editor.new.reshape_all trivialOracle).lines.length = 0 := by
  decide

/-- **C3 witness.** After `load` from an empty line source (which sets
`needs_reshape`), `reshape_all` leaves at least one line. -/
theorem C3_reshape_all_nonempty_witness :
    (Editor.new.load []).needs_reshape = true ∧
    0 < ((Editor.new.load []).reshape_all trivialOracle).lines.length :=
  ⟨rfl, C3_reshape_all_nonempty (Editor.new.load []) trivialOracle rfl⟩

/-! ## Cursor cache length after reshape (C6) -/

lemma foldl_set_length (ws : List (Nat × Rect)) (init : List Rect) :
    (ws.foldl (fun acc w => acc.set w.1 w.2) init).length = init.length := by
  induction ws generalizing init with
  | nil => rfl
  | cons w ws ih => simp [List.foldl_cons, ih, List.length_set]

lemma shape_glyph_bounds_length (text : List Nat) (o : ShapeOracle) :
    (shape text o).glyph_bounds.length = text.length + 1 := by
  unfold shape
  simp [foldl_set_length]

lemma reshapeLine_spec (o : List Nat → ShapeOracle) (l : TextLine)
    (h : l.shaped = true → l.cursor_pos.length = l.text.length + 1) :
    (reshapeLine o l).shaped = true →
      (reshapeLine o l).cursor_pos.length = (reshapeLine o l).text.length + 1 := by
  unfold reshapeLine
  split_ifs with hs
  · exact h
  · intro _
    simp [shape_glyph_bounds_length]

lemma stackOrigins_mem {ls : List TextLine} {y : Int} {l : TextLine}
    (h : l ∈ (stackOrigins ls y).2) :
    ∃ l0 ∈ ls, l.text = l0.text ∧ l.cursor_pos = l0.cursor_pos ∧
      l.shaped = l0.shaped := by
  induction ls generalizing y with
  | nil => simp [stackOrigins] at h
  | cons a as ih =>
      simp only [stackOrigins, List.mem_cons] at h
      rcases h with h | h
      · exact ⟨a, by simp, by subst h; exact ⟨rfl, rfl, rfl⟩⟩
      · rcases ih h with ⟨l0, hl0, he⟩
        exact ⟨l0, by simp [hl0], he⟩

/-- **C6.** After `reshape_all`, every line whose `shaped` flag is set
has a `cursor_pos` of length exactly `text.len() + 1` (the shaping step
allocates one rectangle per byte and pushes the trailing caret slot) —
provided the lines that were already shaped before the call satisfied
the same invariant, which every editing operation maintains by marking
the lines it touches dirty. -/
theorem C6_cursor_pos_length (e : Editor) (o : List Nat → ShapeOracle)
    (hinv : ∀ l ∈ e.lines, l.shaped = true →
      l.cursor_pos.length = l.text.length + 1) :
    ∀ l ∈ (e.reshape_all o).lines, l.shaped = true →
      l.cursor_pos.length = l.text.length + 1 := by
  intro l hl hs
  unfold Editor.reshape_all at hl
  by_cases h : e.needs_reshape = true
  · rw [h] at hl
    simp only [Bool.not_true, Bool.false_eq_true, if_false] at hl
    rcases stackOrigins_mem hl with ⟨l0, hl0, ht, hc, hsh⟩
    rcases List.mem_map.mp hl0 with ⟨l1, hl1, rfl⟩
    have hbase : l1.shaped = true → l1.cursor_pos.length = l1.text.length + 1 := by
      by_cases hE : e.lines.isEmpty = true
      · rw [if_pos hE] at hl1
        simp only [List.mem_singleton] at hl1
        subst hl1
        intro hcontra
        exact absurd hcontra (by simp [TextLine.new])
      · rw [if_neg hE] at hl1
        exact hinv l1 hl1
    rw [ht, hc]
    exact reshapeLine_spec o l1 hbase (by rw [← hsh]; exact hs)
  · have h2 : e.needs_reshape = false := by
      cases hb : e.needs_reshape
      · rfl
      · exact absurd hb h
    rw [h2] at hl
    simp only [Bool.not_false, if_true] at hl
    exact hinv l hl hs

/-- **C6 witness.** Reshaping a dirty two-byte line `"ab"` produces a
shaped line whose `cursor_pos` has length 3; the pre-invariant is
vacuous because the line starts unshaped. -/
theorem C6_cursor_pos_length_witness :
    (∀ l ∈ (Editor.new.load [[97, 98]]).lines, l.shaped = true →
      l.cursor_pos.length = l.text.length + 1) ∧
    (∀ l ∈ ((Editor.new.load [[97, 98]]).reshape_all trivialOracle).lines,
      l.shaped = true → l.cursor_pos.length = l.text.length + 1) :=
  ⟨by decide,
    C6_cursor_pos_length (Editor.new.load [[97, 98]]) trivialOracle (by decide)⟩

/-! ## Out-of-range handling (C4) -/

lemma movNowhere_reshape_irrel (e : Editor) (p : TextPosition) :
    ({ e with needs_reshape := true } : Editor).movNowhere p =
      e.movNowhere p := rfl

lemma lines_reshape_irrel (e : Editor) :
    ({ e with needs_reshape := true } : Editor).lines = e.lines := rfl

lemma insert_total (e : Editor) (p : TextPosition) (text : List Nat) :
    ∃ r, e.insert p text = some r := by
  by_cases h0 : text = []
  · subst h0
    exact ⟨(e, p), by unfold Editor.insert; rw [if_pos rfl]⟩
  · by_cases he : e.lines = []
    · exact ⟨_, insert_empty_doc he h0 p⟩
    · have hlt := movNowhere_para_lt he p
      unfold Editor.insert
      rw [if_neg h0]
      simp only [movNowhere_reshape_irrel, lines_reshape_irrel]
      rw [if_neg (by omega)]
      rcases hsp : splitNl text with _ | ⟨first, rest⟩
      · exact absurd hsp (splitNl_ne_nil text)
      · rcases rest with _ | ⟨next, more⟩
        · exact ⟨_, rfl⟩
        · exact ⟨_, rfl⟩

lemma movLeftFrom_para_lt {e : Editor} {pos : TextPosition}
    (h : pos.paragraph_index < e.lines.length) :
    (e.movLeftFrom pos).paragraph_index < e.lines.length := by
  unfold Editor.movLeftFrom
  split_ifs with h1 h2
  · show pos.paragraph_index - 1 < e.lines.length
    omega
  · exact h
  · exact h

lemma movRightFrom_para_lt {e : Editor} {pos : TextPosition}
    (h : pos.paragraph_index < e.lines.length) :
    (e.movRightFrom pos).paragraph_index < e.lines.length := by
  unfold Editor.movRightFrom
  cases hfb : findBoundaryUp4
      (e.lines.getD pos.paragraph_index default).text pos.text_byte_index with
  | none =>
      simp only [hfb]
      split_ifs with h1
      · show pos.paragraph_index + 1 < e.lines.length
        exact h1
      · exact h
  | some i => simp only [hfb]; exact h

/-- **C4 (amended).** `mov` (for the implemented movements), `insert`
and `get_location` clamp an out-of-range `paragraph_index` through
normalization and never fault, and `remove` with an out-of-range
*start* paragraph is a defined no-op; but — unlike the claim —
`remove` with an in-range start and an out-of-range *end*
`paragraph_index` panics (see the counterexample) instead of clamping.
The last conjunct is the clamp that protects `get_location`'s line
lookup: after its reshape, the normalized cursor's paragraph index is
in range whenever any line exists. -/
theorem C4_out_of_range_handling (e : Editor) (p s t c : TextPosition)
    (m : Movement) (text : List Nat) (o : List Nat → ShapeOracle)
    (hm : m = .nowhere ∨ m = .left ∨ m = .right)
    (hs : e.lines.length ≤ s.paragraph_index) :
    (∃ q, e.mov m p = some q ∧
      (e.lines ≠ [] → q.paragraph_index < e.lines.length)) ∧
    (∃ r, e.insert p text = some r) ∧
    e.remove s t = some (e, s) ∧
    ((e.reshape_all o).lines ≠ [] →
      ((e.reshape_all o).movNowhere c).paragraph_index <
        (e.reshape_all o).lines.length) := by
  refine ⟨?_, insert_total e p text, ?_, ?_⟩
  · by_cases he : e.lines = []
    · refine ⟨⟨0, 0⟩, ?_, fun hc => absurd he hc⟩
      unfold Editor.mov
      rw [if_pos (by simp [he])]
    · have hlen : ¬(e.lines.length = 0) := by
        simpa [List.length_eq_zero] using he
      have hpos := movNowhere_para_lt he p
      rcases hm with rfl | rfl | rfl
      · exact ⟨e.movNowhere p, mov_nowhere_eq e p, fun _ => hpos⟩
      · refine ⟨e.movLeftFrom (e.movNowhere p), ?_, fun _ =>
          movLeftFrom_para_lt hpos⟩
        unfold Editor.mov
        rw [if_neg hlen]
      · refine ⟨e.movRightFrom (e.movNowhere p), ?_, fun _ =>
          movRightFrom_para_lt hpos⟩
        unfold Editor.mov
        rw [if_neg hlen]
  · unfold Editor.remove
    rw [if_pos (Or.inr hs)]
  · intro hne
    exact movNowhere_para_lt hne c

/-- **C4 witness.** The amended conjuncts at concrete inputs: movement
`Right` from the wild position `(paragraph 9, byte 9)` of `["abc"]`,
an insert at that wild position, a remove whose start paragraph 3 is
out of range (no-op), and the in-range normalization used by
`get_location`. -/
theorem C4_out_of_range_handling_witness :
    (∃ q, (Editor.new.load [[97, 98, 99]]).mov .right ⟨9, 9⟩ = some q ∧
      ((Editor.new.load [[97, 98, 99]]).lines ≠ [] →
        q.paragraph_index < (Editor.new.load [[97, 98, 99]]).lines.length)) ∧
    (∃ r, (Editor.new.load [[97, 98, 99]]).insert ⟨9, 9⟩ [120] = some r) ∧
    (Editor.new.load [[97, 98, 99]]).remove ⟨3, 0⟩ ⟨0, 0⟩ =
      some (Editor.new.load [[97, 98, 99]], ⟨3, 0⟩) ∧
    (((Editor.new.load [[97, 98, 99]]).reshape_all trivialOracle).lines ≠ [] →
      (((Editor.new.load [[97, 98, 99]]).reshape_all trivialOracle).movNowhere
          ⟨6, 6⟩).paragraph_index <
        ((Editor.new.load [[97, 98, 99]]).reshape_all trivialOracle).lines.length) :=
  C4_out_of_range_handling (Editor.new.load [[97, 98, 99]]) ⟨9, 9⟩ ⟨3, 0⟩
    ⟨0, 0⟩ ⟨6, 6⟩ .right [120] trivialOracle (Or.inr (Or.inr rfl)) (by decide)

/-- **C4 counterexample.** On `["abc", "def"]`, `remove` with in-range
start `(paragraph 0, byte 0)` and out-of-range end paragraph 5 panics
(the slice `&mut self.lines[0..=5]` is out of bounds): the claim's "in
particular" sentence — that such a call does not fault — is false. -/
theorem C4_counterexample_remove_end_out_of_range :
    ¬((Editor.new.load [[97, 98, 99], [100, 101, 102]]).lines.length ≤ 0) ∧
    (Editor.new.load [[97, 98, 99], [100, 101, 102]]).lines.length ≤ 5 ∧
    (Editor.new.load [[97, 98, 99], [100, 101, 102]]).remove ⟨0, 0⟩ ⟨5, 0⟩ =
      none := by
  decide

/-! ## Multi-paragraph `remove` (C1) -/

lemma remove_multi {e : Editor} {s t : TextPosition}
    (hab : s.paragraph_index < t.paragraph_index)
    (hb : t.paragraph_index < e.lines.length)
    (hsb : isCharBoundary (e.lines.getD s.paragraph_index default).text
      s.text_byte_index = true)
    (htb : isCharBoundary (e.lines.getD t.paragraph_index default).text
      (t.text_byte_index + 1) = true) :
    e.remove s t = some
      ({ e with
          needs_reshape := true
          lines := e.lines.take s.paragraph_index ++
            [{ markDirty (e.lines.getD s.paragraph_index default) with
                text := (e.lines.getD s.paragraph_index default).text.take
                    s.text_byte_index ++
                  (e.lines.getD t.paragraph_index default).text.take
                    (t.text_byte_index + 1) }] ++
            e.lines.drop t.paragraph_index }, s) := by
  unfold Editor.remove
  have hne : ¬(s = t ∨ e.lines.length ≤ s.paragraph_index) := by
    rintro (h | h)
    · rw [h] at hab; omega
    · omega
  rw [if_neg hne]
  dsimp only
  rw [if_pos ⟨by omega, by omega⟩, if_pos hab, if_pos ⟨hsb, htb⟩]

/-- **C1 (amended).** For a `remove` whose normalized start and end lie
in different in-range paragraphs (and whose byte indices sit on the
char boundaries the string operations demand, with
`end.byte_index + 1 ≤ tail length`), the head paragraph's text becomes
the text before `start.byte_index` concatenated with the tail
paragraph's text *from its beginning through the byte at
`end.byte_index` inclusive* (the source's `&foot.text[..=end]` is a
prefix slice, not a suffix); all paragraphs strictly between head and
tail are deleted (the tail itself survives), and the call returns
`start`. -/
theorem C1_remove_multi_paragraph (e : Editor) (s t : TextPosition)
    (hab : s.paragraph_index < t.paragraph_index)
    (hb : t.paragraph_index < e.lines.length)
    (hsb : isCharBoundary (e.lines.getD s.paragraph_index default).text
      s.text_byte_index = true)
    (htb : isCharBoundary (e.lines.getD t.paragraph_index default).text
      (t.text_byte_index + 1) = true) :
    ∃ e2, e.remove s t = some (e2, s) ∧
      e2.lines.map (fun l => l.text) =
        (e.lines.map (fun l => l.text)).take s.paragraph_index ++
          [(e.lines.getD s.paragraph_index default).text.take
              s.text_byte_index ++
            (e.lines.getD t.paragraph_index default).text.take
              (t.text_byte_index + 1)] ++
          (e.lines.map (fun l => l.text)).drop t.paragraph_index ∧
      e2.lines.length =
        e.lines.length - (t.paragraph_index - s.paragraph_index - 1) := by
  refine ⟨_, remove_multi hab hb hsb htb, ?_, ?_⟩
  · simp [List.map_take, List.map_drop]
  · simp only [List.length_append, List.length_take, List.length_drop,
      List.length_cons, List.length_nil]
    omega

/-- **C1 witness.** On `["abc", "def"]`, removing `(paragraph 0, byte 1)
.. (paragraph 1, byte 1)` gives head text `"a" ++ "de" = "ade"` and
keeps the tail `"def"`. -/
theorem C1_remove_multi_paragraph_witness :
    ∃ e2, (Editor.new.load [[97, 98, 99], [100, 101, 102]]).remove
        ⟨0, 1⟩ ⟨1, 1⟩ = some (e2, ⟨0, 1⟩) ∧
      e2.lines.map (fun l => l.text) =
        ((Editor.new.load [[97, 98, 99], [100, 101, 102]]).lines.map
            (fun l => l.text)).take 0 ++
          [((Editor.new.load [[97, 98, 99], [100, 101, 102]]).lines.getD 0
                default).text.take 1 ++
            ((Editor.new.load [[97, 98, 99], [100, 101, 102]]).lines.getD 1
                default).text.take (1 + 1)] ++
          ((Editor.new.load [[97, 98, 99], [100, 101, 102]]).lines.map
            (fun l => l.text)).drop 1 ∧
      e2.lines.length =
        (Editor.new.load [[97, 98, 99], [100, 101, 102]]).lines.length -
          (1 - 0 - 1) :=
  C1_remove_multi_paragraph (Editor.new.load [[97, 98, 99], [100, 101, 102]])
    ⟨0, 1⟩ ⟨1, 1⟩ (by decide) (by decide) (by decide) (by decide)

/-- **C1 counterexample.** The claim predicts head text
`"a" ++ "def"[1..] = "aef"`; the code produces
`"a" ++ "def"[..=1] = "ade"`. -/
theorem C1_counterexample_prefix_not_suffix :
    ((Editor.new.load [[97, 98, 99], [100, 101, 102]]).remove
        ⟨0, 1⟩ ⟨1, 1⟩).map
        (fun r => (r.1.lines.map fun l => l.text, r.2)) =
      some ([[97, 100, 101], [100, 101, 102]], ⟨0, 1⟩) ∧
    ([97, 100, 101] : List Nat) ≠
      [97] ++ ([100, 101, 102] : List Nat).drop 1 := by
  decide

/-! ## Insert with embedded newlines (C2) -/

lemma splitNl_nil : splitNl [] = [[]] := rfl

lemma map_text_new (ls : List (List Nat)) :
    List.map (fun l => l.text) (ls.map TextLine.new) = ls := by
  induction ls with
  | nil => rfl
  | cons x xs ih => simp only [List.map_cons, ih]; rfl

lemma text_ne_nil_of_split {text first next : List Nat} {more : List (List Nat)}
    (hsp : splitNl text = first :: next :: more) : text ≠ [] := by
  intro h
  subst h
  rw [splitNl_nil] at hsp
  exact absurd (congrArg List.length hsp) (by simp)

lemma insert_newline {e : Editor} {p : TextPosition}
    {text first next : List Nat} {more : List (List Nat)}
    (hsp : splitNl text = first :: next :: more)
    (hin : (e.movNowhere p).paragraph_index < e.lines.length) :
    e.insert p text = some
      ({ e with
          needs_reshape := true
          lines :=
            e.lines.take (e.movNowhere p).paragraph_index ++
              [{ markDirty
                    (e.lines.getD (e.movNowhere p).paragraph_index default) with
                  text :=
                    (e.lines.getD (e.movNowhere p).paragraph_index
                        default).text.take (e.movNowhere p).text_byte_index ++
                      first }] ++
              ((next :: more).dropLast.map TextLine.new) ++
              [TextLine.new ((next :: more).getLastD [] ++
                (e.lines.getD (e.movNowhere p).paragraph_index
                    default).text.drop (e.movNowhere p).text_byte_index)] ++
              e.lines.drop ((e.movNowhere p).paragraph_index + 1) },
        ⟨(e.movNowhere p).paragraph_index + (next :: more).length,
          ((next :: more).getLastD []).length⟩) := by
  unfold Editor.insert
  rw [if_neg (text_ne_nil_of_split hsp)]
  simp only [movNowhere_reshape_irrel, lines_reshape_irrel]
  rw [if_neg (by omega), hsp]

/-- **C2 (amended).** For an insert at an in-range normalized position
whose text contains at least one newline: the target line is split at
`pos.byte_index`, the head keeps everything before the split point plus
the first newline-separated part, one new paragraph is spliced in per
interior part, and the final new paragraph is the last part concatenated
with the original tail of the split line.  The returned position is in
the newly formed tail paragraph at byte `len(last part)` — i.e.
immediately after the inserted text — which equals the end of that
paragraph exactly when the original tail is empty (split at end of
line); the claim's `["hello"]` scenario is of that form and holds. -/
theorem C2_insert_with_newlines (e : Editor) (p : TextPosition)
    (text first next : List Nat) (more : List (List Nat))
    (hsp : splitNl text = first :: next :: more)
    (hin : (e.movNowhere p).paragraph_index < e.lines.length) :
    ∃ e2 q, e.insert p text = some (e2, q) ∧
      e2.lines.map (fun l => l.text) =
        (e.lines.map (fun l => l.text)).take
            (e.movNowhere p).paragraph_index ++
          [(e.lines.getD (e.movNowhere p).paragraph_index default).text.take
              (e.movNowhere p).text_byte_index ++ first] ++
          (next :: more).dropLast ++
          [(next :: more).getLastD [] ++
            (e.lines.getD (e.movNowhere p).paragraph_index default).text.drop
              (e.movNowhere p).text_byte_index] ++
          (e.lines.map (fun l => l.text)).drop
            ((e.movNowhere p).paragraph_index + 1) ∧
      q = ⟨(e.movNowhere p).paragraph_index + (next :: more).length,
        ((next :: more).getLastD []).length⟩ ∧
      ((e.lines.getD (e.movNowhere p).paragraph_index default).text.drop
          (e.movNowhere p).text_byte_index = [] →
        q.text_byte_index =
          ((next :: more).getLastD [] ++
            (e.lines.getD (e.movNowhere p).paragraph_index default).text.drop
              (e.movNowhere p).text_byte_index).length) := by
  refine ⟨_, _, insert_newline hsp hin, ?_, rfl, ?_⟩
  · simp only [List.map_append, List.map_take, List.map_drop, List.map_cons,
      List.map_nil, map_text_new]
    rfl
  · intro hEmptyTail
    rw [hEmptyTail]
    simp

/-- **C2 witness.** The claim's scenario: on `["hello"]`,
`insert("\nworld", (byte 5, paragraph 0))` yields lines
`["hello", "world"]` and returned position `(byte 5, paragraph 1)`,
which is the end of the new tail paragraph because the split point was
the end of the line. -/
theorem C2_insert_with_newlines_witness :
    (∃ e2 q, (Editor.new.load [[104, 101, 108, 108, 111]]).insert ⟨0, 5⟩
        [10, 119, 111, 114, 108, 100] = some (e2, q) ∧
      e2.lines.map (fun l => l.text) =
        ((Editor.new.load [[104, 101, 108, 108, 111]]).lines.map
            (fun l => l.text)).take
            ((Editor.new.load [[104, 101, 108, 108, 111]]).movNowhere
              ⟨0, 5⟩).paragraph_index ++
          [((Editor.new.load [[104, 101, 108, 108, 111]]).lines.getD
                ((Editor.new.load [[104, 101, 108, 108, 111]]).movNowhere
                  ⟨0, 5⟩).paragraph_index default).text.take
              ((Editor.new.load [[104, 101, 108, 108, 111]]).movNowhere
                ⟨0, 5⟩).text_byte_index ++ []] ++
          ([119, 111, 114, 108, 100] :: ([] : List (List Nat))).dropLast ++
          [([119, 111, 114, 108, 100] :: ([] : List (List Nat))).getLastD [] ++
            ((Editor.new.load [[104, 101, 108, 108, 111]]).lines.getD
                ((Editor.new.load [[104, 101, 108, 108, 111]]).movNowhere
                  ⟨0, 5⟩).paragraph_index default).text.drop
              ((Editor.new.load [[104, 101, 108, 108, 111]]).movNowhere
                ⟨0, 5⟩).text_byte_index] ++
          ((Editor.new.load [[104, 101, 108, 108, 111]]).lines.map
            (fun l => l.text)).drop
            (((Editor.new.load [[104, 101, 108, 108, 111]]).movNowhere
              ⟨0, 5⟩).paragraph_index + 1) ∧
      q = ⟨((Editor.new.load [[104, 101, 108, 108, 111]]).movNowhere
            ⟨0, 5⟩).paragraph_index +
          ([119, 111, 114, 108, 100] :: ([] : List (List Nat))).length,
        (([119, 111, 114, 108, 100] :: ([] : List (List Nat))).getLastD
          []).length⟩ ∧
      (((Editor.new.load [[104, 101, 108, 108, 111]]).lines.getD
            ((Editor.new.load [[104, 101, 108, 108, 111]]).movNowhere
              ⟨0, 5⟩).paragraph_index default).text.drop
          ((Editor.new.load [[104, 101, 108, 108, 111]]).movNowhere
            ⟨0, 5⟩).text_byte_index = [] →
        q.text_byte_index =
          (([119, 111, 114, 108, 100] :: ([] : List (List Nat))).getLastD [] ++
            ((Editor.new.load [[104, 101, 108, 108, 111]]).lines.getD
                ((Editor.new.load [[104, 101, 108, 108, 111]]).movNowhere
                  ⟨0, 5⟩).paragraph_index default).text.drop
              ((Editor.new.load [[104, 101, 108, 108, 111]]).movNowhere
                ⟨0, 5⟩).text_byte_index).length)) :=
  C2_insert_with_newlines (Editor.new.load [[104, 101, 108, 108, 111]])
    ⟨0, 5⟩ [10, 119, 111, 114, 108, 100] [] [119, 111, 114, 108, 100] []
    (by decide) (by decide)

/-- **C2 counterexample.** Splitting `["hello"]` at byte 2 with
`"\nworld"`: the tail paragraph becomes `"worldllo"` (length 8) but the
returned position is byte 5 of that paragraph — the claim's "returned
position is at the end of the newly formed tail paragraph" is false
whenever the original tail is non-empty. -/
theorem C2_counterexample_return_not_at_tail_end :
    ((Editor.new.load [[104, 101, 108, 108, 111]]).insert ⟨0, 2⟩
        [10, 119, 111, 114, 108, 100]).map
        (fun r => (r.1.lines.map fun l => l.text, r.2)) =
      some ([[104, 101], [119, 111, 114, 108, 100, 108, 108, 111]],
        ⟨1, 5⟩) ∧
    (5 : Nat) ≠ ([119, 111, 114, 108, 100, 108, 108, 111] : List Nat).length := by
  decide

/-! ## UTF-8 chunk structure: the next boundary is at most 4 bytes away -/

lemma isCharBoundary_cons {x : Nat} {r : List Nat} {j : Nat} (hj : 1 ≤ j) :
    isCharBoundary (x :: r) (j + 1) = isCharBoundary r j := by
  unfold isCharBoundary
  rw [if_neg (show ¬(j + 1 = 0) by omega), if_neg (show ¬(j = 0) by omega)]
  simp only [List.length_cons, List.getD_cons_succ]
  by_cases h : j < r.length
  · rw [if_pos (by omega), if_pos h]
  · rw [if_neg (by omega), if_neg h]
    simp only [decide_eq_decide]
    omega

lemma chunksOk_head {x : Nat} {r : List Nat} (h : chunksOk (x :: r) 0 = true) :
    isCont x = false := by
  cases hcx : isCont x with
  | false => rfl
  | true =>
      exfalso
      unfold chunksOk at h
      rw [if_pos hcx] at h
      exact Bool.noConfusion h

lemma chunksOk_cons_cont {x : Nat} {r : List Nat} {k : Nat}
    (hx : isCont x = true) (h : chunksOk (x :: r) k = true) :
    ∃ k2, k = k2 + 1 ∧ chunksOk r k2 = true := by
  unfold chunksOk at h
  rw [if_pos hx] at h
  cases k with
  | zero => exact Bool.noConfusion h
  | succ k2 => exact ⟨k2, rfl, h⟩

lemma chunksOk_cons_noncont {x : Nat} {r : List Nat} {k : Nat}
    (hx : isCont x = false) (h : chunksOk (x :: r) k = true) :
    chunksOk r 3 = true := by
  unfold chunksOk at h
  rw [if_neg (by simp [hx])] at h
  exact h

lemma chunksOk_zero_of_noncont {x : Nat} {r : List Nat} {k : Nat}
    (hx : isCont x = false) (hk : chunksOk (x :: r) k = true) :
    chunksOk (x :: r) 0 = true := by
  have h3 := chunksOk_cons_noncont hx hk
  unfold chunksOk
  rw [if_neg (by simp [hx])]
  exact h3

lemma chunksOk_drop (s : List Nat) (k b : Nat) (h : chunksOk s k = true) :
    ∃ k2, chunksOk (s.drop b) k2 = true := by
  induction b generalizing s k with
  | zero => exact ⟨k, h⟩
  | succ n ih =>
      cases s with
      | nil => exact ⟨0, rfl⟩
      | cons x r =>
          rw [List.drop_succ_cons]
          cases hx : isCont x with
          | true =>
              rcases chunksOk_cons_cont hx h with ⟨k2, _, h2⟩
              exact ih r k2 h2
          | false => exact ih r 3 (chunksOk_cons_noncont hx h)

lemma chunksOk_findFirst_cont : ∀ (s : List Nat) (k : Nat),
    chunksOk s k = true → 0 < s.length → isCont (s.getD 0 0) = true →
    ∃ j, 1 ≤ j ∧ j ≤ k ∧ isCharBoundary s j = true := by
  intro s
  induction s with
  | nil => intro k _ h; simp at h
  | cons x r ih =>
      intro k hk _ hx
      simp only [List.getD_cons_zero] at hx
      rcases chunksOk_cons_cont hx hk with ⟨k2, rfl, h2⟩
      cases r with
      | nil => exact ⟨1, le_refl 1, by omega, boundary_length [x]⟩
      | cons y r2 =>
          cases hy : isCont y with
          | false =>
              refine ⟨1, le_refl 1, by omega, ?_⟩
              unfold isCharBoundary
              rw [if_neg (by omega),
                if_pos (by simp only [List.length_cons]; omega)]
              simp [List.getD_cons_succ, hy]
          | true =>
              rcases ih k2 h2 (by simp) (by simpa using hy) with
                ⟨j, hj1, hj2, hj3⟩
              exact ⟨j + 1, by omega, by omega,
                by rw [isCharBoundary_cons hj1]; exact hj3⟩

lemma chunksOk_findFirst (s : List Nat) (k : Nat)
    (hk : chunksOk s k = true) (hlen : 0 < s.length)
    (hx : isCont (s.getD 0 0) = false) :
    ∃ j, 1 ≤ j ∧ j ≤ 4 ∧ isCharBoundary s j = true := by
  cases s with
  | nil => simp at hlen
  | cons x r =>
      simp only [List.getD_cons_zero] at hx
      have h3 : chunksOk r 3 = true := chunksOk_cons_noncont hx hk
      cases r with
      | nil => exact ⟨1, le_refl 1, by omega, boundary_length [x]⟩
      | cons y r2 =>
          cases hy : isCont y with
          | false =>
              refine ⟨1, le_refl 1, by omega, ?_⟩
              unfold isCharBoundary
              rw [if_neg (by omega),
                if_pos (by simp only [List.length_cons]; omega)]
              simp [List.getD_cons_succ, hy]
          | true =>
              rcases chunksOk_findFirst_cont (y :: r2) 3 h3 (by simp)
                  (by simpa using hy) with ⟨j, hj1, hj2, hj3⟩
              exact ⟨j + 1, by omega, by omega,
                by rw [isCharBoundary_cons hj1]; exact hj3⟩

lemma isCharBoundary_drop (s : List Nat) (b j : Nat) (hb : b ≤ s.length)
    (hj : 1 ≤ j) :
    isCharBoundary (s.drop b) j = isCharBoundary s (b + j) := by
  induction b generalizing s with
  | zero => simp
  | succ n ih =>
      cases s with
      | nil => simp at hb
      | cons x r =>
          rw [List.drop_succ_cons, ih r (by simpa using hb)]
          rw [show n + 1 + j = (n + j) + 1 by omega,
            isCharBoundary_cons (by omega)]

lemma getD_drop_head {s : List Nat} {b : Nat} (h : b < s.length) :
    (s.drop b).getD 0 0 = s.getD b 0 := by
  rw [List.drop_eq_getElem_cons h, List.getD_cons_zero,
    List.getD_eq_getElem s 0 h]

lemma valid_drop {s : List Nat} {b : Nat}
    (hv : chunksOk s 0 = true) (hb : isCharBoundary s b = true)
    (hlt : b < s.length) :
    chunksOk (s.drop b) 0 = true ∧ isCont ((s.drop b).getD 0 0) = false := by
  rcases chunksOk_drop s 0 b hv with ⟨k2, hk2⟩
  have hnc : isCont (s.getD b 0) = false := by
    cases b with
    | zero =>
        cases s with
        | nil => simp at hlt
        | cons x r =>
            rw [List.getD_cons_zero]
            exact chunksOk_head hv
    | succ n =>
        unfold isCharBoundary at hb
        rw [if_neg (by omega), if_pos hlt] at hb
        simpa using hb
  have hgd : s.getD b 0 = s[b] := List.getD_eq_getElem s 0 hlt
  have hcons := List.drop_eq_getElem_cons hlt
  constructor
  · rw [hcons]
    rw [hcons] at hk2
    exact chunksOk_zero_of_noncont (by rw [← hgd]; exact hnc) hk2
  · rw [getD_drop_head hlt]
    exact hnc

lemma nextBoundary_within4 {s : List Nat} {b : Nat}
    (hv : chunksOk s 0 = true) (hb : isCharBoundary s b = true)
    (hlt : b < s.length) :
    ∃ j, 1 ≤ j ∧ j ≤ 4 ∧ isCharBoundary s (b + j) = true := by
  rcases valid_drop hv hb hlt with ⟨h0, hnc⟩
  rcases chunksOk_findFirst (s.drop b) 0 h0
      (by simp only [List.length_drop]; omega) hnc with ⟨j, hj1, hj4, hjb⟩
  refine ⟨j, hj1, hj4, ?_⟩
  rw [← isCharBoundary_drop s b j (by omega) hj1]
  exact hjb

/-! ## Right-then-Left inversion (C7) -/

lemma mov_right_eq {e : Editor} (h : ¬(e.lines.length = 0))
    (p : TextPosition) :
    e.mov .right p = some (e.movRightFrom (e.movNowhere p)) := by
  unfold Editor.mov
  rw [if_neg h]

lemma mov_left_eq {e : Editor} (h : ¬(e.lines.length = 0))
    (p : TextPosition) :
    e.mov .left p = some (e.movLeftFrom (e.movNowhere p)) := by
  unfold Editor.mov
  rw [if_neg h]

lemma getD_mem_of_lt {e : Editor} {i : Nat} (h : i < e.lines.length) :
    e.lines.getD i default ∈ e.lines := by
  rw [List.getD_eq_getElem e.lines default h]
  exact List.getElem_mem h

/-- **C7 (amended).** On a document of valid UTF-8 lines, for every
normalized position `p` that is *not at the document end* (the claim
said "document start"; at the document end `Right` is the identity, so
`Left` afterwards moves strictly backwards — see the counterexample),
`mov(Right, p)` followed by `mov(Left, ·)` returns `p`; and at the
document end `mov(Right, ·)` leaves the position unchanged. -/
theorem C7_right_then_left_inverse (e : Editor) (p : TextPosition)
    (hv : ∀ l ∈ e.lines, validUtf8 l.text = true)
    (hp : p.paragraph_index < e.lines.length)
    (hb : isCharBoundary (e.lines.getD p.paragraph_index default).text
      p.text_byte_index = true)
    (hne : p ≠ e.docEnd) :
    (∃ q, e.mov .right p = some q ∧ e.mov .left q = some p) ∧
    e.mov .right e.docEnd = some e.docEnd := by
  have hlen : ¬(e.lines.length = 0) := by omega
  constructor
  · obtain ⟨pp, pb⟩ := p
    dsimp only at hp hb
    have hnorm : e.movNowhere ⟨pp, pb⟩ = ⟨pp, pb⟩ := movNowhere_fix hp hb
    by_cases hend : pb < (e.lines.getD pp default).text.length
    · rcases nextBoundary_within4 (hv _ (getD_mem_of_lt hp)) hb hend with
        ⟨j, hj1, hj4, hjb⟩
      rcases findBoundaryUp4_isSome hj1 hj4 hjb with ⟨i, hi⟩
      rcases findBoundaryUp4_spec hi with ⟨hbi, hi4, hib, hmin⟩
      refine ⟨⟨pp, i⟩, ?_, ?_⟩
      · rw [mov_right_eq hlen, hnorm]
        unfold Editor.movRightFrom
        dsimp only
        rw [hi]
      · rw [mov_left_eq hlen]
        have hnorm2 : e.movNowhere ⟨pp, i⟩ = ⟨pp, i⟩ :=
          movNowhere_fix hp hib
        rw [hnorm2]
        unfold Editor.movLeftFrom
        dsimp only
        rw [if_neg (show ¬(i = 0) by omega)]
        have hdown : findBoundaryDown (e.lines.getD pp default).text (i - 1) =
            pb :=
          findBoundaryDown_max hb (by omega)
            (fun k hk1 hk2 => hmin k hk1 (by omega))
        rw [hdown]
    · have hbeq : pb = (e.lines.getD pp default).text.length := by
        have := boundary_le_length hb
        omega
      have hppne : pp + 1 < e.lines.length := by
        rcases Nat.lt_or_ge (pp + 1) e.lines.length with h | h
        · exact h
        · exfalso
          apply hne
          have hpp : pp = e.lines.length - 1 := by omega
          unfold Editor.docEnd
          rw [hpp] at hbeq
          rw [hpp, hbeq]
      refine ⟨⟨pp + 1, 0⟩, ?_, ?_⟩
      · rw [mov_right_eq hlen, hnorm]
        unfold Editor.movRightFrom
        dsimp only
        rw [hbeq, findBoundaryUp4_none (le_refl _), if_pos hppne]
      · rw [mov_left_eq hlen]
        have hnorm2 : e.movNowhere ⟨pp + 1, 0⟩ = ⟨pp + 1, 0⟩ :=
          movNowhere_fix hppne (boundary_zero _)
        rw [hnorm2]
        unfold Editor.movLeftFrom
        dsimp only
        rw [if_pos rfl, if_pos (by omega)]
        rw [show pp + 1 - 1 = pp by omega, ← hbeq]
  · rw [mov_right_eq hlen]
    have hnormE : e.movNowhere e.docEnd = e.docEnd := by
      apply movNowhere_fix
      · show e.lines.length - 1 < e.lines.length
        omega
      · exact boundary_length _
    rw [hnormE]
    unfold Editor.movRightFrom Editor.docEnd
    dsimp only
    rw [findBoundaryUp4_none (le_refl _), if_neg (by omega)]

/-- **C7 witness.** On the single valid-UTF-8 line `["ab"]`, from the
normalized non-end position `(paragraph 0, byte 0)`: Right then Left
returns to it, and Right at the document end `(0, 2)` is the
identity. -/
theorem C7_right_then_left_inverse_witness :
    (∃ q, (Editor.new.load [[97, 98]]).mov .right ⟨0, 0⟩ = some q ∧
      (Editor.new.load [[97, 98]]).mov .left q = some ⟨0, 0⟩) ∧
    (Editor.new.load [[97, 98]]).mov .right
        (Editor.new.load [[97, 98]]).docEnd =
      some (Editor.new.load [[97, 98]]).docEnd :=
  C7_right_then_left_inverse (Editor.new.load [[97, 98]]) ⟨0, 0⟩
    (by decide) (by decide) (by decide) (by decide)

/-- **C7 counterexample.** On `["a"]`, the position `(paragraph 0,
byte 1)` is normalized (in-range paragraph, char boundary) and is *not*
the document start, yet Right-then-Left does not return to it: Right is
clamped at the document end, and Left then moves strictly left to
`(0, 0)`.  The claim's quantification ("not at the document start") is
wrong; the correct exclusion is the document end. -/
theorem C7_counterexample_at_doc_end :
    ((0 : Nat) < (Editor.new.load [[97]]).lines.length ∧
      isCharBoundary
        ((Editor.new.load [[97]]).lines.getD 0 default).text 1 = true ∧
      (⟨0, 1⟩ : TextPosition) ≠ ⟨0, 0⟩) ∧
    (Editor.new.load [[97]]).mov .right ⟨0, 1⟩ = some ⟨0, 1⟩ ∧
    (Editor.new.load [[97]]).mov .left ⟨0, 1⟩ = some ⟨0, 0⟩ ∧
    (⟨0, 0⟩ : TextPosition) ≠ ⟨0, 1⟩ := by
  decide

end PlainTextEditor
